import Mathlib

/- Verification of the timestamp / annotation / chart / text-layout core of the
   `lag` log viewer, as a shallow embedding of its Rust sources.

   Conventions used throughout:
   * `chrono::DateTime<Utc>` instants and `chrono::Duration` values are modelled
     as integers counting milliseconds; chrono's subtraction of instants is exact
     integer subtraction and `Duration::num_milliseconds` is then the identity.
   * Rust panics (`expect`, integer division by zero) are modelled by returning
     `none` from the embedded function.
   * `usize` values are modelled as `Nat`; `/` on them is Rust's truncating
     integer division wherever the divisor is shown (or assumed) to be nonzero.
-/

/-! ### GapFiller: `fill_in_timestamps` (src/app.rs) -/

/-- The first resolved entry of the input, as found by
`lines.iter().find(|l| l.is_some())` inside `fill_in_timestamps`. -/
def firstSome : List (Option Int) → Option Int
  | [] => none
  | some t :: _ => some t
  | none :: rest => firstSome rest

/-- The carry-forward loop of `fill_in_timestamps`: `prev` holds the most
recently resolved timestamp, initially the first resolved entry. -/
def fillLoop (prev : Int) : List (Option Int) → List Int
  | [] => []
  | some t :: rest => t :: fillLoop t rest
  | none :: rest => prev :: fillLoop prev rest

/-- `fill_in_timestamps` from src/app.rs. The
`.expect("Unable to extract valid timestamp from any line")` panic taken when no
entry is resolved is modelled as `none`. -/
def fill_in_timestamps (lines : List (Option Int)) : Option (List Int) :=
  match firstSome lines with
  | none => none
  | some first => some (fillLoop first lines)

/-- The most recently resolved value in `ts`, or `d` if `ts` has no resolved
entry. Specification vocabulary for the carry-forward property. -/
def lastSomeD (ts : List (Option Int)) (d : Int) : Int :=
  match ts with
  | [] => d
  | some t :: rest => lastSomeD rest t
  | none :: rest => lastSomeD rest d

/-! ### LogAnnotator: `diffs` and `create_annotated_lines` (src/app.rs) -/

/-- The `for i in 1..timestamps.len()` loop of `diffs`, with `prev` the previous
timestamp. -/
def diffsAux (prev : Int) : List Int → List Int
  | [] => []
  | t :: rest => (t - prev) :: diffsAux t rest

/-- `diffs` from src/app.rs: a leading zero (pushed whenever the input is
non-empty) followed by the consecutive differences of the timestamps. -/
def diffs (timestamps : List Int) : List Int :=
  match timestamps with
  | [] => []
  | t :: rest => 0 :: diffsAux t rest

/-- `AnnotatedLine` from src/app.rs. Line text is a list of characters. -/
structure AnnotatedLine where
  line_number : Nat
  line : List Char
  timestamp : Int
  elapsed : Int
  deriving DecidableEq, Repr, Inhabited

/-- `create_annotated_lines` from src/app.rs: zip the enumerated lines with the
timestamps and the elapsed-time diffs (Rust's `zip` truncates to the shorter
list, as does `List.zip`). -/
def create_annotated_lines (lines : List (List Char)) (timestamps : List Int) :
    List AnnotatedLine :=
  ((lines.enum.zip timestamps).zip (diffs timestamps)).map
    (fun p => ⟨p.1.1.1, p.1.1.2, p.1.2, p.2⟩)

/-! ### Normalisation: the `deltas` computation in `App::new` (src/app.rs) -/

/-- The fragment of IEEE 754 binary64 needed by the delta computation. Finite
values carry an exact rational. `App::new` only ever divides two values obtained
from `i64 as f64` casts (exact for the magnitudes involved), so only the
finite/finite case of division is reachable; the quotient of two nonzero finite
values is modelled as an exact rational because no claim below depends on a
rounded value, only on the NaN / infinity / zero classification. -/
inductive F64 where
  | nan : F64
  | inf : F64
  | neginf : F64
  | fin : ℚ → F64
  deriving DecidableEq, Repr

/-- IEEE 754 division for the cases reachable from the embedded code:
`0.0 / 0.0 = NaN`, `x / 0.0 = ±∞` for `x ≠ 0`; a NaN operand propagates, and the
remaining (unreachable) non-finite patterns are mapped to NaN. -/
def F64.div : F64 → F64 → F64
  | .fin a, .fin b =>
    if b = 0 then
      if a = 0 then .nan else if 0 < a then .inf else .neginf
    else .fin (a / b)
  | _, _ => .nan

/-- The `total_time` / `total_millis` / `deltas` computation in `App::new`
(src/app.rs lines 170-175): `total` is the span between the first and last
resolved timestamp and each elapsed time is divided by it, with no special case
for a zero span. -/
def appDeltas (timestamps : List Int) : List F64 :=
  (diffs timestamps).map
    (fun e : Int => F64.div (F64.fin (e : ℚ))
      (F64.fin ((timestamps.getLastD 0 - timestamps.headI : Int) : ℚ)))

/-! ### TimestampExtractor: `extract_timestamp` (src/app.rs)

The two primitive parsers used by `extract_timestamp` come from the `chrono`
crate. They are modelled here at the character level, to the fidelity the
claims need:

* `parseGeneral` models `str::parse::<DateTime<Utc>>()`, chrono's `FromStr`
  instance: year `-` month `-` day, a literal `T` separator, hour `:` minute
  `:` second, an optional `.fraction`, and a `Z`/`z` or `±HH:MM` offset, with
  the whole input consumed.  (chrono also skips whitespace at a few interior
  positions, but every string this development applies `parseGeneral` to is a
  whitespace-free token, so those skips are vacuous; signed years are not
  modelled.)  In particular a bare date such as `2023-01-02` fails: the
  separator and time are mandatory.
* `parseFixed` models
  `NaiveDateTime::parse_from_str(s, "%Y-%m-%d %H:%M:%S.%3fZ")`: numeric fields
  parse one-up-to-width digits greedily, the format's literal space skips any
  run of whitespace, `%3f` is exactly three digits, and parsing fails if input
  remains after the trailing `Z` (chrono's `TOO_LONG`).

Timestamps are the count of milliseconds since the Unix epoch, via the
standard days-from-civil calendar formula (accurate for the years ≥ 1 that
the 4-digit unsigned year field can produce). -/

/-- Rust `char::is_whitespace` (the Unicode `White_Space` property), restricted
to the characters the inputs considered here contain: ASCII whitespace plus
the no-break space U+00A0 (which is `White_Space = Yes` in Unicode, hence
whitespace to Rust). -/
def isWsChar (c : Char) : Bool :=
  c = ' ' || c = '\t' || c = '\n' || c = '\r' || c = '\u00a0'

/-- Accumulator-passing worker for `splitWs`. -/
def splitWsAux : List Char → List Char → List (List Char)
  | [], acc => if acc.isEmpty then [] else [acc.reverse]
  | c :: rest, acc =>
    if isWsChar c then
      if acc.isEmpty then splitWsAux rest []
      else acc.reverse :: splitWsAux rest []
    else splitWsAux rest (c :: acc)

/-- Rust `str::split_whitespace`: maximal runs of non-whitespace characters. -/
def splitWs (s : List Char) : List (List Char) :=
  splitWsAux s []

/-- `Vec::join(" ")`: interpose a single space between the tokens. -/
def joinSpace (ls : List (List Char)) : List Char :=
  List.intercalate [' '] ls

/-- Numeric value of a digit string, most significant digit first. -/
def natOfDigits (ds : List Char) : Nat :=
  ds.foldl (fun a c => a * 10 + (c.toNat - 48)) 0

/-- chrono's `scan::number(s, 1, max)`: consume greedily up to `max` digits,
requiring at least one. -/
def parseNumMax (max : Nat) (s : List Char) : Option (Nat × List Char) :=
  let ds := (s.takeWhile Char.isDigit).take max
  if ds.isEmpty then none
  else some (natOfDigits ds, s.drop ds.length)

/-- Exactly `n` digits (chrono's `Fixed::Nanosecond3` for `%3f`). -/
def parseExactDigits (n : Nat) (s : List Char) : Option (Nat × List Char) :=
  let ds := s.take n
  if ds.length = n && ds.all Char.isDigit then
    some (natOfDigits ds, s.drop n)
  else none

/-- Consume one expected character. -/
def expectChar (c : Char) : List Char → Option (List Char)
  | x :: rest => if x = c then some rest else none
  | [] => none

/-- Drop a run of whitespace (chrono's `Item::Space`, zero or more). -/
def skipWs (s : List Char) : List Char :=
  s.dropWhile isWsChar

def isLeapYear (y : Nat) : Bool :=
  y % 4 = 0 && (y % 100 ≠ 0 || y % 400 = 0)

def daysInMonth (y m : Nat) : Nat :=
  if m = 2 then (if isLeapYear y then 29 else 28)
  else if m = 4 || m = 6 || m = 9 || m = 11 then 30
  else 31

/-- Days since 1970-01-01 of the civil date `y-m-d` (the standard
days-from-civil formula, valid for years ≥ 1). -/
def daysFromCivil (y m d : Nat) : Int :=
  let y' := if m ≤ 2 then y - 1 else y
  let era := y' / 400
  let yoe := y' % 400
  let mp := (m + 9) % 12
  let doy := (153 * mp + 2) / 5 + (d - 1)
  let doe := yoe * 365 + yoe / 4 - yoe / 100 + doy
  ((era * 146097 + doe : Nat) : Int) - 719468

/-- Milliseconds since the Unix epoch of a civil date-time. -/
def toMillis (y mo d hh mi ss ms : Nat) : Int :=
  daysFromCivil y mo d * 86400000 +
    ((hh * 3600 + mi * 60 + ss) * 1000 + ms : Nat)

/-- Field validation performed by chrono's `Parsed` before producing a value. -/
def validYmdHms (y mo d hh mi ss : Nat) : Bool :=
  1 ≤ mo && mo ≤ 12 && 1 ≤ d && d ≤ daysInMonth y mo &&
    hh ≤ 23 && mi ≤ 59 && ss ≤ 59

/-- The optional fractional-seconds part of chrono's `Fixed::Nanosecond`: if a
`.` is present it must be followed by at least one digit; the value is kept to
millisecond precision. Absent fraction parses as zero, consuming nothing. -/
def parseFrac : List Char → Option (Nat × List Char)
  | '.' :: rest =>
    let ds := rest.takeWhile Char.isDigit
    if ds.isEmpty then none
    else some (natOfDigits ((ds ++ [ '0', '0', '0' ]).take 3), rest.drop ds.length)
  | s => some (0, s)

/-- An explicit `±HH:MM` / `±HHMM` numeric offset, in minutes. -/
def parseOffMinutes (s : List Char) : Option (Int × List Char) := do
  let (hh, s) ← parseExactDigits 2 s
  let s := match s with
    | ':' :: rest => rest
    | other => other
  let (mi, s) ← parseExactDigits 2 s
  pure ((hh * 60 + mi : Nat), s)

/-- chrono's `Fixed::TimezoneOffsetZ`: `Z`/`z`, or a signed numeric offset.
Returns the offset in minutes. -/
def parseTz : List Char → Option (Int × List Char)
  | 'Z' :: rest => some (0, rest)
  | 'z' :: rest => some (0, rest)
  | '+' :: rest => parseOffMinutes rest
  | '-' :: rest => do
    let (m, s) ← parseOffMinutes rest
    pure (-m, s)
  | _ => none

/-- chrono's `FromStr` for `DateTime<Utc>` (see the header comment above). -/
def parseGeneral (s : List Char) : Option Int := do
  let (y, s) ← parseNumMax 4 s
  let s ← expectChar '-' s
  let (mo, s) ← parseNumMax 2 s
  let s ← expectChar '-' s
  let (d, s) ← parseNumMax 2 s
  let s ← expectChar 'T' s
  let (hh, s) ← parseNumMax 2 s
  let s ← expectChar ':' s
  let (mi, s) ← parseNumMax 2 s
  let s ← expectChar ':' s
  let (ss, s) ← parseNumMax 2 s
  let (ms, s) ← parseFrac s
  let (off, s) ← parseTz s
  if s.isEmpty && validYmdHms y mo d hh mi ss then
    pure (toMillis y mo d hh mi ss ms - off * 60000)
  else none

/-- chrono's `NaiveDateTime::parse_from_str` against `%Y-%m-%d %H:%M:%S.%3fZ`,
followed by `DateTime::<Utc>::from_utc` (the identity on the instant).
Parsing fails unless the entire input is consumed. -/
def parseFixed (s : List Char) : Option Int := do
  let (y, s) ← parseNumMax 4 s
  let s ← expectChar '-' s
  let (mo, s) ← parseNumMax 2 s
  let s ← expectChar '-' s
  let (d, s) ← parseNumMax 2 s
  let s := skipWs s
  let (hh, s) ← parseNumMax 2 s
  let s ← expectChar ':' s
  let (mi, s) ← parseNumMax 2 s
  let s ← expectChar ':' s
  let (ss, s) ← parseNumMax 2 s
  let s ← expectChar '.' s
  let (ms, s) ← parseExactDigits 3 s
  let s ← expectChar 'Z' s
  if s.isEmpty && validYmdHms y mo d hh mi ss then
    pure (toMillis y mo d hh mi ss ms)
  else none

/-- `extract_timestamp` from src/app.rs: take the first whitespace-delimited
token and try the general parse; if that fails, join the first two tokens with
a single space and try the fixed `%Y-%m-%d %H:%M:%S.%3fZ` parse; `none` if
both fail (or the line has no token at all, the `?` early return). -/
def extract_timestamp (line : List Char) : Option Int :=
  match (splitWs line).head? with
  | none => none
  | some t =>
    match parseGeneral t with
    | some d => some d
    | none =>
      match parseFixed (joinSpace ((splitWs line).take 2)) with
      | some d => some d
      | none => none

/-- Modelled from the spec's words (§4.1/§6), for comparison with the code:
first try a fixed 24-character prefix against the literal pattern
`YYYY-MM-DD HH:MM:SS.mmmZ`; only if that fails, take the first
whitespace-delimited token and attempt the general date-time parse. -/
def extract_timestamp_spec (line : List Char) : Option Int :=
  match line with
  | y1 :: y2 :: y3 :: y4 :: '-' :: m1 :: m2 :: '-' :: d1 :: d2 :: ' ' ::
      h1 :: h2 :: ':' :: n1 :: n2 :: ':' :: s1 :: s2 :: '.' ::
      f1 :: f2 :: f3 :: 'Z' :: _ =>
    if [y1, y2, y3, y4, m1, m2, d1, d2, h1, h2, n1, n2, s1, s2,
        f1, f2, f3].all Char.isDigit &&
        validYmdHms (natOfDigits [y1, y2, y3, y4]) (natOfDigits [m1, m2])
          (natOfDigits [d1, d2]) (natOfDigits [h1, h2])
          (natOfDigits [n1, n2]) (natOfDigits [s1, s2]) then
      some (toMillis (natOfDigits [y1, y2, y3, y4]) (natOfDigits [m1, m2])
        (natOfDigits [d1, d2]) (natOfDigits [h1, h2]) (natOfDigits [n1, n2])
        (natOfDigits [s1, s2]) (natOfDigits [f1, f2, f3]))
    else
      match (splitWs line).head? with
      | none => none
      | some t => parseGeneral t
  | _ =>
    match (splitWs line).head? with
    | none => none
    | some t => parseGeneral t

/-- The amended description of `extract_timestamp`: general parse of the first
token first, then the fixed parse of the first two tokens joined by a single
space; `none` exactly when both attempts fail. -/
def extract_timestamp_amended (line : List Char) : Option Int :=
  match (splitWs line).head? with
  | none => none
  | some t =>
    (parseGeneral t).orElse
      (fun _ => parseFixed (joinSpace ((splitWs line).take 2)))

/-- A line on which the code and the spec's description of `extract_timestamp`
disagree: the first 24 characters match `YYYY-MM-DD HH:MM:SS.mmmZ` exactly, but
non-whitespace text follows immediately after the `Z`. -/
def cexLine : List Char := ("2023-01-02 03:04:05.678Zfoo").toList

/-! ### GapRanker: `sorted_lines` in `App::new` (src/app.rs) -/

/-- The comparator passed to `sort_by` in `App::new`:
`|x, y| y.elapsed.cmp(&x.elapsed)` permits `x` to precede `y` exactly when
`y.elapsed ≤ x.elapsed` (descending elapsed time). -/
def elapsedGE (x y : AnnotatedLine) : Prop := y.elapsed ≤ x.elapsed

instance : DecidableRel elapsedGE :=
  fun x y => inferInstanceAs (Decidable (y.elapsed ≤ x.elapsed))

instance : IsTotal AnnotatedLine elapsedGE :=
  ⟨fun a b => le_total b.elapsed a.elapsed⟩

instance : IsTrans AnnotatedLine elapsedGE :=
  ⟨fun _ _ _ hab hbc => le_trans hbc hab⟩

/-- `sorted_lines` from `App::new`: a stable sort of the annotated lines by
decreasing elapsed time. Rust's `slice::sort_by` is documented to be a stable
sort, and for a total, transitive comparator every stable sort produces the
same output, so the model uses insertion sort (which is stable: elements that
compare equal keep their input order). No top-K truncation appears anywhere in
the code. -/
def sortedLines (lines : List AnnotatedLine) : List AnnotatedLine :=
  List.insertionSort elapsedGE lines

/-- Two lines are stably ordered if equal elapsed times imply ascending
original line numbers. -/
def StableOrder (x y : AnnotatedLine) : Prop :=
  x.elapsed = y.elapsed → x.line_number < y.line_number

/-! ### ChartViewport: `zoom` and `ChartState` (src/chart.rs)

`ChartState::new` sets `zoom_factor = 3.0` and `horizontal_resolution = 100`,
and nothing in the program ever modifies them, so they are embedded as
constants. The floating-point step
`(current_interval_length as f64 * scale_factor) as usize` is embedded as
exact natural division / multiplication, which is justified as follows for
every `len ≤ 2^50`:

* zoom out, `scale_factor = 3.0`: `3.0` and every product `len * 3` are
  exactly representable, and the `as usize` cast truncates, so the result is
  exactly `3 * len`.
* zoom in, `scale_factor = 1.0 / 3.0`: the f64 nearest to `1/3` is
  `q = (2^54 - 1) / (3 * 2^54)`, so the true product is
  `len/3 - len/(3 * 2^54)`.  If `3 ∣ len` the deficit `len / 2^54` is under
  half an ulp of `len/3`, so the rounded product is exactly `len / 3`;
  otherwise the deficit is astronomically smaller than the ≥ 1/3 distance
  down to `⌊len/3⌋`, so truncation still gives `⌊len/3⌋`.  Either way the
  result is exactly `len / 3` in natural-number division. -/

/-- The `horizontal_resolution` set by `ChartState::new`. -/
def chartHorizontalResolution : Nat := 100

/-- The free function `zoom` from src/chart.rs, with the already-truncated
target interval length supplied by the caller. Returns `none` exactly where
the Rust code panics: when the guards fall through and
`current_step_size = current_interval_length / horizontal_resolution` is zero,
the two offset divisions divide by zero. (The subtractions
`current_line - interval.0` and `interval.1 - current_line` are `usize`
subtractions; all uses below keep `interval.0 ≤ current_line ≤ interval.1`,
where Rust's and Nat's subtraction agree.) -/
def zoomCore (currentLine numLines : Nat) (interval : Nat × Nat)
    (hr targetLen : Nat) : Option (Nat × Nat) :=
  if targetLen < hr then some interval
  else if targetLen > numLines then some (0, numLines)
  else
    let css := (interval.2 - interval.1) / hr
    if css = 0 then none
    else
      let clo := (currentLine - interval.1) / css
      let cuo := (interval.2 - currentLine) / css
      let ts := targetLen / hr
      let tlo := ts * clo
      let tuo := ts * cuo
      if tlo > currentLine then some (0, targetLen)
      else if currentLine + tuo > numLines then
        some (numLines - targetLen, numLines)
      else some (currentLine - tlo, currentLine + tuo)

/-- The mutable chart state: the delta series' length and the current interval
(the delta values themselves never influence `zoom` or `update`). -/
structure ChartSt where
  numLines : Nat
  interval : Nat × Nat
  deriving DecidableEq, Repr

/-- `ChartState::zoom_in`: scale factor `1.0 / 3.0`, so the target length is
`len / 3` (see the section comment for the floating-point justification). -/
def zoomInSt (s : ChartSt) (currentLine : Nat) : Option ChartSt :=
  (zoomCore currentLine s.numLines s.interval chartHorizontalResolution
      ((s.interval.2 - s.interval.1) / 3)).map
    (fun iv => ⟨s.numLines, iv⟩)

/-- `ChartState::zoom_out`: scale factor `3.0`, so the target length is
`3 * len` exactly. -/
def zoomOutSt (s : ChartSt) (currentLine : Nat) : Option ChartSt :=
  (zoomCore currentLine s.numLines s.interval chartHorizontalResolution
      (3 * (s.interval.2 - s.interval.1))).map
    (fun iv => ⟨s.numLines, iv⟩)

/-- `ChartState::update` from src/chart.rs: slide the interval when the cursor
comes within `interval_length / 8` of either edge. -/
def updateSt (s : ChartSt) (currentLine : Nat) : ChartSt :=
  if s.interval = (0, s.numLines) then s
  else
    let margin := (s.interval.2 - s.interval.1) / 8
    let targetUpper := min (currentLine + margin) s.numLines
    if s.interval.2 < targetUpper then
      ⟨s.numLines, (s.interval.1 + (targetUpper - s.interval.2),
        s.interval.2 + (targetUpper - s.interval.2))⟩
    else
      let targetLower := if currentLine < margin then 0 else currentLine - margin
      if targetLower < s.interval.1 then
        ⟨s.numLines, (s.interval.1 - (s.interval.1 - targetLower),
          s.interval.2 - (s.interval.1 - targetLower))⟩
      else s

/-- Chart states reachable from `ChartState::new` on a non-empty delta series
of length `n` (`new` asserts `n > 0` and sets the interval to `(0, n)`) by any
sequence of `zoom_in`, `zoom_out` and `update` calls (`section` reads but never
mutates the state). A zoom call contributes a step only when it returns
normally rather than panicking. -/
inductive ReachSt (n : Nat) : ChartSt → Prop where
  | init : 0 < n → ReachSt n ⟨n, (0, n)⟩
  | zoomIn (s s' : ChartSt) (cl : Nat) :
      ReachSt n s → zoomInSt s cl = some s' → ReachSt n s'
  | zoomOut (s s' : ChartSt) (cl : Nat) :
      ReachSt n s → zoomOutSt s cl = some s' → ReachSt n s'
  | update (s : ChartSt) (cl : Nat) : ReachSt n s → ReachSt n (updateSt s cl)

/-! ### LineComposer: `WordWrapper::next_line` (src/gaugagraph.rs)

Symbols are grapheme clusters (lists of characters) paired with a style the
wrapping logic never inspects. The display-width function
(`unicode_width::UnicodeWidthStr::width`) is a parameter `w` of the embedding,
so that concrete instances (ASCII text, wide CJK glyphs) can be plugged in. -/

/-- `Styled<'a>`: one grapheme cluster plus its style. -/
structure Styled (α : Type) where
  sym : List Char
  style : α
  deriving DecidableEq, Repr

/-- The newline symbol (`symbol == "\n"`). -/
def nlSym : List Char := [ '\n' ]

/-- `NBSP`, the designated non-breaking space that never marks a word end. -/
def nbspSym : List Char := [ '\u00a0' ]

/-- The width of a line: the sum of the display widths of its symbols
(`current_line.iter().map(|Styled(c, _)| c.width() as u16).sum()`). -/
def sumW (w : List Char → Nat) : List (Styled α) → Nat
  | [] => 0
  | st :: rest => w st.sym + sumW w rest

/-- The remainder-carry step of the overflow branch: push the remainder to the
next line but strip its leading whitespace (`position` of the first
non-whitespace symbol; an all-whitespace remainder leaves the next line
empty). -/
def wwStrip : List (Styled α) → List (Styled α) :=
  fun remainder => remainder.dropWhile (fun x => x.sym.all isWsChar)

/-- The `current_line_width > max_line_width` break of `next_line`: truncate
at `ta` (the recorded word end, or the end of the line minus the overflowing
symbol when no word end exists, in which case the reported width is the
maximum), carry the stripped remainder, and stop consuming. `cur'` and `clw'`
are the line and width after the overflowing push. -/
def wwOverflow (maxW : Nat) (cur' : List (Styled α))
    (ta tw : Nat) (rest : List (Styled α)) :
    (List (Styled α) × Nat) × List (Styled α) × List (Styled α) :=
  if ta ≠ 0 then ((cur'.take ta, tw), wwStrip (cur'.drop ta), rest)
  else ((cur'.take (cur'.length - 1), maxW),
    wwStrip (cur'.drop (cur'.length - 1)), rest)

/-- The symbol loop of `WordWrapper::next_line`, src/gaugagraph.rs lines
212-267. Arguments mirror the Rust locals: the unconsumed symbols, then
`current_line`, `current_line_width`, `symbols_to_last_word_end`,
`width_to_last_word_end`, `prev_whitespace`. Returns the yielded line with its
reported width, the carry for the next call (`next_line`), and the unconsumed
stream. The word-end mark (`s2/w2 := cur.length/clw`) is inlined into the two
push branches. -/
def wwLoop (w : List Char → Nat) (maxW : Nat) :
    List (Styled α) → List (Styled α) → Nat → Nat → Nat → Bool →
    (List (Styled α) × Nat) × List (Styled α) × List (Styled α)
  | [], cur, clw, _, _, _ => ((cur, clw), [], [])
  | st :: rest, cur, clw, s2, w2, prevWs =>
    if maxW < w st.sym ∨
        (st.sym.all isWsChar = true ∧ st.sym ≠ nlSym ∧ clw = 0) then
      wwLoop w maxW rest cur clw s2 w2 prevWs
    else if st.sym = nlSym then
      if prevWs = true then ((cur.take s2, w2), [], rest)
      else ((cur, clw), [], rest)
    else if st.sym.all isWsChar = true ∧ prevWs = false ∧
        st.sym ≠ nbspSym then
      if maxW < clw + w st.sym then
        wwOverflow maxW (cur ++ [st]) cur.length clw rest
      else
        wwLoop w maxW rest (cur ++ [st]) (clw + w st.sym) cur.length clw
          (st.sym.all isWsChar)
    else
      if maxW < clw + w st.sym then
        wwOverflow maxW (cur ++ [st]) s2 w2 rest
      else
        wwLoop w maxW rest (cur ++ [st]) (clw + w st.sym) s2 w2
          (st.sym.all isWsChar)

/-- One call of `WordWrapper::next_line`: `none` when `max_line_width == 0`
(state untouched) or when the stream was already exhausted and no carried
partial line is pending; otherwise the swap brings the carried remainder in as
the new current line (its width recomputed by summation) and the loop runs. -/
def wwNext (w : List Char → Nat) (maxW : Nat)
    (carry stream : List (Styled α)) :
    Option (List (Styled α) × Nat) × List (Styled α) × List (Styled α) :=
  if maxW = 0 then (none, carry, stream)
  else if stream.isEmpty then
    if carry.isEmpty then (none, [], [])
    else (some (carry, sumW w carry), [], [])
  else
    (some (wwLoop w maxW stream carry (sumW w carry) 0 0 false).1,
      (wwLoop w maxW stream carry (sumW w carry) 0 0 false).2)

/-- Repeated `next_line` calls, collecting every yielded line. `fuel` bounds
the number of calls; each call with a non-empty stream consumes at least one
symbol and a call with an empty stream leaves the terminal (`[]`, `[]`)
state, so `stream.length + 2` calls always reach the `none` answer. -/
def wwRun (w : List Char → Nat) (maxW : Nat) :
    Nat → List (Styled α) → List (Styled α) → List (List (Styled α) × Nat)
  | 0, _, _ => []
  | Nat.succ fuel, carry, stream =>
    match wwNext w maxW carry stream with
    | (none, _, _) => []
    | (some ln, carry', stream') => ln :: wwRun w maxW fuel carry' stream'

/-- All lines the word wrapper yields for a symbol stream. -/
def wwLines (w : List Char → Nat) (maxW : Nat) (stream : List (Styled α)) :
    List (List (Styled α) × Nat) :=
  wwRun w maxW (stream.length + 2) [] stream

/-- Display width of plain ASCII text: every character one column. -/
def asciiW : List Char → Nat := fun s => s.length

/-- Display width with the CJK ideograph `日` two columns wide and every other
character one (`unicode_width`'s widths for these graphemes). -/
def cjkW : List Char → Nat :=
  fun s => s.foldl (fun a c => a + (if c = '日' then 2 else 1)) 0

/-- The symbol stream of `"hello world"`: one single-character grapheme per
letter, unit style. -/
def helloStream : List (Styled Unit) :=
  (("hello world").toList).map (fun c => ⟨[c], ()⟩)

/-- All symbols of `l` have display width at most one column. -/
def W1 (w : List Char → Nat) (l : List (Styled α)) : Prop :=
  ∀ st ∈ l, w st.sym ≤ 1

/-- The per-call invariant: the yielded line's reported width is the sum of
its symbols' widths and at most the maximum, and the carry passed to the next
call is again width-1 symbols of total width at most the maximum (as is the
unconsumed stream). -/
def WWInv (w : List Char → Nat) (maxW : Nat)
    (r : (List (Styled α) × Nat) × List (Styled α) × List (Styled α)) : Prop :=
  r.1.2 = sumW w r.1.1 ∧ r.1.2 ≤ maxW ∧ W1 w r.2.1 ∧
    sumW w r.2.1 ≤ maxW ∧ W1 w r.2.2

/-- C5 counterexample: on `cexLine` the spec's pipeline (24-character prefix
first) resolves a timestamp, but the code returns `none`: the code's first
attempt parses the token `2023-01-02` (fails, no time part), and its second
attempt feeds the two joined tokens `2023-01-02 03:04:05.678Zfoo` to the fixed
format, which rejects trailing input. So `extract_timestamp` is not the
function the claim describes. -/
theorem extract_timestamp_counterexample :
    extract_timestamp cexLine = none ∧
    extract_timestamp_spec cexLine = some 1672628645678 ∧
    extract_timestamp cexLine ≠ extract_timestamp_spec cexLine := by
  refine ⟨by rfl, by rfl, ?_⟩
  intro h
  rw [show extract_timestamp cexLine = none from rfl,
    show extract_timestamp_spec cexLine = some 1672628645678 from rfl] at h
  exact Option.noConfusion h

/-- C5 amended: `extract_timestamp` first takes the first whitespace-delimited
token and attempts the general date-time parse; only if that fails does it
join the first two whitespace-delimited tokens with a single space and parse
them against `YYYY-MM-DD HH:MM:SS.mmmZ`; it returns `none` exactly when both
attempts fail, and it is a pure function of the line. -/
theorem extract_timestamp_amended_correct (line : List Char) :
    extract_timestamp line = extract_timestamp_amended line ∧
    (extract_timestamp line = none ↔
      (splitWs line).head?.bind parseGeneral = none ∧
      parseFixed (joinSpace ((splitWs line).take 2)) = none) := by
  cases h : (splitWs line).head? with
  | none =>
    have hnil : splitWs line = [] := List.head?_eq_none_iff.mp h
    have hfix : parseFixed (joinSpace ((splitWs line).take 2)) = none := by
      rw [hnil]; rfl
    exact ⟨by simp [extract_timestamp, extract_timestamp_amended, h],
      by simp [extract_timestamp, h, hfix]⟩
  | some t =>
    cases hg : parseGeneral t with
    | some d =>
      exact ⟨by simp [extract_timestamp, extract_timestamp_amended, h, hg,
          Option.orElse],
        by simp [extract_timestamp, h, hg]⟩
    | none =>
      cases hf : parseFixed (joinSpace ((splitWs line).take 2)) with
      | some d =>
        exact ⟨by simp [extract_timestamp, extract_timestamp_amended, h, hg,
            hf, Option.orElse],
          by simp [extract_timestamp, h, hg, hf]⟩
      | none =>
        exact ⟨by simp [extract_timestamp, extract_timestamp_amended, h, hg,
            hf, Option.orElse],
          by simp [extract_timestamp, h, hg, hf]⟩

/-! ### Supporting lemmas for C1 -/

theorem firstSome_eq_none_iff (ts : List (Option Int)) :
    firstSome ts = none ↔ ∀ x ∈ ts, x = none := by
  induction ts with
  | nil => simp [firstSome]
  | cons hd tl ih =>
    cases hd with
    | none => simpa [firstSome] using ih
    | some t => simp [firstSome]

theorem fillLoop_length (prev : Int) (ts : List (Option Int)) :
    (fillLoop prev ts).length = ts.length := by
  induction ts generalizing prev with
  | nil => rfl
  | cons hd tl ih => cases hd <;> simp [fillLoop, ih]

theorem lastSomeD_all_none (l : List (Option Int)) (d : Int)
    (h : ∀ x ∈ l, x = none) : lastSomeD l d = d := by
  induction l with
  | nil => rfl
  | cons hd tl ih =>
    have hhd : hd = none := h hd (by simp)
    rw [hhd]
    exact ih (fun x hx => h x (by simp [hx]))

theorem firstSome_getD (ts : List (Option Int)) (i : Nat) (hi : i < ts.length)
    (hlead : ∀ x ∈ ts.take i, x = none) (t : Int)
    (hts : ts.getD i none = some t) : firstSome ts = some t := by
  induction ts generalizing i with
  | nil => simp at hi
  | cons hd tl ih =>
    cases i with
    | zero =>
      have hhd : hd = some t := by simpa using hts
      rw [hhd]
      rfl
    | succ j =>
      have hhd : hd = none := hlead hd (by simp)
      rw [hhd]
      show firstSome tl = some t
      exact ih j (by simpa using hi)
        (fun x hx => hlead x (by simp [hx])) (by simpa using hts)

theorem fillLoop_getD (ts : List (Option Int)) (prev : Int) (i : Nat)
    (hi : i < ts.length) :
    (fillLoop prev ts).getD i 0 =
      match ts.getD i none with
      | some t => t
      | none => lastSomeD (ts.take i) prev := by
  induction ts generalizing prev i with
  | nil => simp at hi
  | cons hd tl ih =>
    cases i with
    | zero => cases hd <;> simp [fillLoop, lastSomeD]
    | succ j =>
      have hj : j < tl.length := by simpa using hi
      cases hd with
      | none => simpa [fillLoop, lastSomeD] using ih prev j hj
      | some t => simpa [fillLoop, lastSomeD] using ih t j hj

/-- C1: for every input with at least one resolved entry, `fill_in_timestamps`
succeeds and returns one timestamp per input line, where a resolved position
keeps its own value and a missing position receives the most recently resolved
value before it — which, for positions before the first resolved entry, is that
first resolved value; and on any input with no resolved entry at all it fails
fatally. -/
theorem fill_in_timestamps_spec (ts : List (Option Int)) (first : Int)
    (hfirst : firstSome ts = some first) :
    (∃ out, fill_in_timestamps ts = some out ∧
      out.length = ts.length ∧
      (∀ i, i < ts.length →
        out.getD i 0 =
          match ts.getD i none with
          | some t => t
          | none => lastSomeD (ts.take i) first) ∧
      (∀ i, i < ts.length → (∀ x ∈ ts.take i, x = none) →
        out.getD i 0 = first)) ∧
    (∀ ts2 : List (Option Int), (∀ x ∈ ts2, x = none) →
      fill_in_timestamps ts2 = none) := by
  constructor
  · refine ⟨fillLoop first ts, ?_, fillLoop_length first ts, ?_, ?_⟩
    · simp [fill_in_timestamps, hfirst]
    · intro i hi
      exact fillLoop_getD ts first i hi
    · intro i hi hlead
      rw [fillLoop_getD ts first i hi]
      cases hts : ts.getD i none with
      | some t =>
        have h1 : firstSome ts = some t := firstSome_getD ts i hi hlead t hts
        rw [hfirst] at h1
        exact (Option.some.inj h1).symm
      | none =>
        exact lastSomeD_all_none (ts.take i) first hlead
  · intro ts2 h2
    have : firstSome ts2 = none := (firstSome_eq_none_iff ts2).mpr h2
    simp [fill_in_timestamps, this]

/-- Witness for C1 at a concrete input: `[none, some 3, none, some 7, none]`
resolves to a full list of 5 timestamps. -/
theorem fill_in_timestamps_spec_witness :
    ∃ out, fill_in_timestamps [none, some 3, none, some 7, none] = some out ∧
      out.length = 5 := by
  obtain ⟨⟨out, h1, h2, -⟩, -⟩ :=
    fill_in_timestamps_spec [none, some 3, none, some 7, none] 3 rfl
  exact ⟨out, h1, h2⟩

/-! ### Supporting lemmas for C2 -/

theorem diffsAux_length (prev : Int) (ts : List Int) :
    (diffsAux prev ts).length = ts.length := by
  induction ts generalizing prev with
  | nil => rfl
  | cons t rest ih => simp [diffsAux, ih]

theorem diffs_length (ts : List Int) : (diffs ts).length = ts.length := by
  cases ts with
  | nil => rfl
  | cons t rest => simp [diffs, diffsAux_length]

theorem diffsAux_getD (ts : List Int) (prev : Int) (i : Nat) (hi : i < ts.length) :
    (diffsAux prev ts).getD i 0 = ts.getD i 0 - (prev :: ts).getD i 0 := by
  induction ts generalizing prev i with
  | nil => simp at hi
  | cons t rest ih =>
    cases i with
    | zero => simp [diffsAux]
    | succ j =>
      have hj : j < rest.length := by simpa using hi
      simpa [diffsAux] using ih t j hj

theorem diffs_getD (ts : List Int) (i : Nat) (hi : i < ts.length) :
    (diffs ts).getD i 0 =
      if i = 0 then 0 else ts.getD i 0 - ts.getD (i - 1) 0 := by
  cases ts with
  | nil => simp at hi
  | cons t rest =>
    cases i with
    | zero => simp [diffs]
    | succ j =>
      have hj : j < rest.length := by simpa using hi
      have := diffsAux_getD rest t j hj
      simp only [diffs, List.getD_cons_succ, this]
      cases j with
      | zero => simp
      | succ k => simp

theorem getD_map_elapsed (l : List AnnotatedLine) (i : Nat) (hi : i < l.length) :
    (l.map AnnotatedLine.elapsed).getD i 0 = (l.getD i default).elapsed := by
  induction l generalizing i with
  | nil => simp at hi
  | cons a rest ih =>
    cases i with
    | zero => rfl
    | succ j =>
      have hj : j < rest.length := by simpa using hi
      simpa using ih j hj

theorem create_annotated_lines_map_elapsed (lines : List (List Char))
    (ts : List Int) (hlen : lines.length = ts.length) :
    (create_annotated_lines lines ts).map AnnotatedLine.elapsed = diffs ts := by
  have h2 : (lines.enum.zip ts).length = ts.length := by
    simp [List.length_zip, hlen]
  have hle : (diffs ts).length ≤ (lines.enum.zip ts).length := by
    simp [h2, diffs_length]
  have key : (AnnotatedLine.elapsed ∘
      fun p : ((Nat × List Char) × Int) × Int =>
        (⟨p.1.1.1, p.1.1.2, p.1.2, p.2⟩ : AnnotatedLine)) = Prod.snd := rfl
  simp only [create_annotated_lines, List.map_map, key]
  exact List.map_snd_zip _ _ hle

/-- C2: for every non-empty timestamp sequence (paired with a line list of
equal length, as in `App::new`), the annotated lines carry `elapsed[0] = 0` and
`elapsed[i] = timestamps[i] - timestamps[i-1]` for `i > 0`, as signed integer
subtraction — negative when timestamps regress, with no clamping. -/
theorem create_annotated_lines_elapsed (lines : List (List Char)) (ts : List Int)
    (hlen : lines.length = ts.length) (hne : ts ≠ []) :
    (create_annotated_lines lines ts).length = ts.length ∧
    ((create_annotated_lines lines ts).getD 0 default).elapsed = 0 ∧
    ∀ i, 0 < i → i < ts.length →
      ((create_annotated_lines lines ts).getD i default).elapsed =
        ts.getD i 0 - ts.getD (i - 1) 0 := by
  have hmap := create_annotated_lines_map_elapsed lines ts hlen
  have hlen2 : (create_annotated_lines lines ts).length = ts.length := by
    have := congrArg List.length hmap
    simpa [diffs_length] using this
  refine ⟨hlen2, ?_, ?_⟩
  · have h0 : 0 < ts.length := by
      cases ts with
      | nil => exact absurd rfl hne
      | cons t rest => simp
    have := getD_map_elapsed (create_annotated_lines lines ts) 0 (by omega)
    rw [hmap] at this
    rw [← this, diffs_getD ts 0 h0]
    simp
  · intro i hpos hi
    have := getD_map_elapsed (create_annotated_lines lines ts) i (by omega)
    rw [hmap] at this
    rw [← this, diffs_getD ts i hi]
    simp [Nat.pos_iff_ne_zero.mp hpos]

/-- Witness for C2 at a concrete input: timestamps `[10, 7, 30]` give elapsed
times `0`, `-3` (a regression, sign preserved) and `23`. -/
theorem create_annotated_lines_elapsed_witness :
    ((create_annotated_lines [['a'], ['b'], ['c']] [10, 7, 30]).getD 0
        default).elapsed = 0 ∧
    ((create_annotated_lines [['a'], ['b'], ['c']] [10, 7, 30]).getD 1
        default).elapsed = -3 ∧
    ((create_annotated_lines [['a'], ['b'], ['c']] [10, 7, 30]).getD 2
        default).elapsed = 23 := by
  obtain ⟨-, h0, hrest⟩ :=
    create_annotated_lines_elapsed [['a'], ['b'], ['c']] [10, 7, 30]
      (by decide) (by decide)
  refine ⟨h0, ?_, ?_⟩
  · have := hrest 1 (by decide) (by decide)
    simpa using this
  · have := hrest 2 (by decide) (by decide)
    simpa using this

/-! ### C3: the zero-span "fallback" does not exist in the code -/

theorem diffsAux_const (c : Int) (ts : List Int) (h : ∀ t ∈ ts, t = c) :
    diffsAux c ts = List.replicate ts.length 0 := by
  induction ts with
  | nil => rfl
  | cons t rest ih =>
    have ht : t = c := h t (by simp)
    subst ht
    simp only [diffsAux, List.length_cons, List.replicate_succ, sub_self]
    exact congrArg (List.cons 0) (ih (fun x hx => h x (by simp [hx])))

theorem diffs_const (c : Int) (ts : List Int) (h : ∀ t ∈ ts, t = c) :
    diffs ts = List.replicate ts.length 0 := by
  cases ts with
  | nil => rfl
  | cons t rest =>
    have ht : t = c := h t (by simp)
    simp only [diffs, List.length_cons, List.replicate_succ, ht]
    exact congrArg (List.cons 0) (diffsAux_const c rest
      (fun x hx => h x (by simp [hx])))

theorem getLastD_const (ts : List Int) (c : Int) (h : ∀ t ∈ ts, t = c) :
    ∀ d, ts ≠ [] → ts.getLastD d = c := by
  induction ts with
  | nil => intro d hd; exact absurd rfl hd
  | cons t rest ih =>
    intro d _
    rw [List.getLastD_cons]
    cases rest with
    | nil => simpa using h t (by simp)
    | cons u us =>
      exact ih (fun x hx => h x (by simp [hx])) t (by simp)

/-- C3 counterexample: a two-line log whose resolved timestamps are identical
(total span zero). The code computes `0.0 / 0.0` for every line, so the
`DeltaSeries` is `[NaN, NaN]`, not the `[0, 0]` the claim promises. -/
theorem appDeltas_zero_span_counterexample :
    appDeltas [5, 5] = [F64.nan, F64.nan] ∧
    appDeltas [5, 5] ≠ [F64.fin 0, F64.fin 0] := by
  constructor
  · show List.map _ _ = _
    simp [appDeltas, diffs, diffsAux, F64.div]
  · intro hcontra
    have : F64.nan = F64.fin 0 := by
      have h1 : appDeltas [5, 5] = [F64.nan, F64.nan] := by
        simp [appDeltas, diffs, diffsAux, F64.div]
      rw [h1] at hcontra
      exact (List.cons.injEq _ _ _ _).mp hcontra |>.1
    exact F64.noConfusion this

/-- C3 amended: whenever the resolved timestamps of a non-empty input are all
identical (`total_span_millis == 0`), `App::new` divides each elapsed time
(`0`) by the zero span, so every element of the `DeltaSeries` is NaN — there is
no defined-as-zero fallback in the code. -/
theorem appDeltas_zero_span_all_nan (ts : List Int) (c : Int) (hne : ts ≠ [])
    (hconst : ∀ t ∈ ts, t = c) :
    appDeltas ts = List.replicate ts.length F64.nan := by
  have hlast : ts.getLastD 0 = c := getLastD_const ts c hconst 0 hne
  have hhead : ts.headI = c := by
    cases ts with
    | nil => exact absurd rfl hne
    | cons t rest => simpa using hconst t (by simp)
  have hdiffs : diffs ts = List.replicate ts.length 0 := diffs_const c ts hconst
  have h1 : appDeltas ts = (List.replicate ts.length 0).map
      (fun e : Int => F64.div (F64.fin (e : ℚ))
        (F64.fin ((c - c : Int) : ℚ))) := by
    rw [appDeltas, hdiffs, hlast, hhead]
  rw [h1, List.map_replicate]
  simp [F64.div]

/-- Witness for the C3 amended theorem at the concrete input `[5, 5]`. -/
theorem appDeltas_zero_span_all_nan_witness :
    appDeltas [5, 5] = List.replicate 2 F64.nan := by
  have := appDeltas_zero_span_all_nan [5, 5] 5 (by decide) (by decide)
  simpa using this

theorem pairwise_takeWhile_dropWhile {α : Type _} {P : α → α → Prop}
    {p : α → Bool} {l : List α} (h : l.Pairwise P) :
    ∀ x ∈ l.takeWhile p, ∀ y ∈ l.dropWhile p, P x y := by
  have hsplit : l.takeWhile p ++ l.dropWhile p = l :=
    List.takeWhile_append_dropWhile p l
  rw [← hsplit] at h
  exact (List.pairwise_append.mp h).2.2

theorem orderedInsert_stable (a : AnnotatedLine) (l : List AnnotatedLine)
    (hpair : l.Pairwise StableOrder)
    (hmin : ∀ b ∈ l, a.line_number < b.line_number) :
    (l.orderedInsert elapsedGE a).Pairwise StableOrder := by
  rw [List.orderedInsert_eq_take_drop, List.pairwise_append]
  refine ⟨hpair.sublist (List.takeWhile_sublist _), ?_, ?_⟩
  · rw [List.pairwise_cons]
    refine ⟨?_, hpair.sublist (List.dropWhile_sublist _)⟩
    intro y hy _
    exact hmin y (List.Sublist.mem hy (List.dropWhile_sublist _))
  · intro x hx y hy
    rcases List.mem_cons.mp hy with rfl | hy'
    · intro hEq
      have hpx := List.mem_takeWhile_imp hx
      simp only [decide_not, Bool.not_eq_true', decide_eq_false_iff_not] at hpx
      exact absurd (le_of_eq hEq) hpx
    · exact pairwise_takeWhile_dropWhile hpair x hx y hy'

theorem sortedLines_stable (lines : List AnnotatedLine)
    (h : lines.Pairwise (fun a b => a.line_number < b.line_number)) :
    (sortedLines lines).Pairwise StableOrder := by
  induction lines with
  | nil => simp [sortedLines]
  | cons a l ih =>
    have hmin : ∀ b ∈ l, a.line_number < b.line_number :=
      (List.pairwise_cons.mp h).1
    have hpair := ih (List.pairwise_cons.mp h).2
    show (List.orderedInsert elapsedGE a
      (List.insertionSort elapsedGE l)).Pairwise StableOrder
    apply orderedInsert_stable
    · exact hpair
    · intro b hb
      exact hmin b ((List.perm_insertionSort elapsedGE l).mem_iff.mp hb)

/-- C4 counterexample: the code applies no cap at all, so with cap `k = 1` and
`N = 2` annotated lines the output has size `2`, not `min k N = 1`. -/
theorem sortedLines_no_cap_counterexample :
    (sortedLines [⟨0, [], 0, 5⟩, ⟨1, [], 3, 3⟩]).length = 2 ∧
    (sortedLines [⟨0, [], 0, 5⟩, ⟨1, [], 3, 3⟩]).length ≠ min 1 2 := by
  constructor
  · rfl
  · intro hcontra
    rw [show (sortedLines [⟨0, [], 0, 5⟩, ⟨1, [], 3, 3⟩]).length = 2 from rfl]
      at hcontra
    simp at hcontra

/-- C4 amended: `sorted_lines` is a permutation of the annotated set (hence a
subset of it, of size `N` — no top-K cap is applied), is non-increasing by
elapsed time, and among entries with equal elapsed preserves ascending
original-index order (first occurrence wins), assuming the input's
original indices are strictly increasing, as produced by
`create_annotated_lines`. -/
theorem sortedLines_spec (lines : List AnnotatedLine)
    (hidx : lines.Pairwise (fun a b => a.line_number < b.line_number)) :
    (sortedLines lines).Perm lines ∧
    (sortedLines lines).length = lines.length ∧
    (∀ x ∈ sortedLines lines, x ∈ lines) ∧
    (sortedLines lines).Pairwise elapsedGE ∧
    (sortedLines lines).Pairwise StableOrder := by
  have hperm : (sortedLines lines).Perm lines :=
    List.perm_insertionSort elapsedGE lines
  refine ⟨hperm, hperm.length_eq, ?_, ?_, sortedLines_stable lines hidx⟩
  · intro x hx
    exact hperm.mem_iff.mp hx
  · exact List.sorted_insertionSort elapsedGE lines

/-- The zoom test cases shipped in src/chart.rs, reproduced by the embedding
(the tests call `zoom` directly with scale factor `0.5`, whose float step is
exactly `len / 2`). -/
theorem zoomCore_matches_repo_tests :
    zoomCore 10 200 (0, 199) 100 (199 / 2) = some (0, 199) ∧
    zoomCore 10 200 (0, 200) 100 (200 / 2) = some (5, 105) ∧
    zoomCore 280 2100 (0, 2100) 100 (2100 / 2) = some (150, 1140) := by
  decide

/-- C6: refuted by evaluation — `zoom_in` can shrink the interval below the
resolution floor. From the initial state of a 300-line chart at focus line 1,
the target length is `300 / 3 = 100 ≥ horizontal_resolution`, so the guard
does not fire, but proportional recentering with step sizes 3 and 1 yields
`(1, 100)`: a changed interval of length `99 < 100`. -/
theorem zoom_in_below_resolution_floor :
    zoomInSt ⟨300, (0, 300)⟩ 1 = some ⟨300, (1, 100)⟩ ∧
    (100 - 1 : Nat) < chartHorizontalResolution ∧
    ((1, 100) : Nat × Nat) ≠ (0, 300) := by
  decide

/-- C7: refuted by evaluation — `zoom_in` then `zoom_out` at the same focus
line and factor is far from length-preserving. From interval `(0, 597)` at
focus 10, `zoom_in` yields `(8, 127)` (the target 199 collapses to
`1 * (2 + 117) = 119` through the two-stage truncation), and `zoom_out` then
yields `(4, 361)` of length 357: the round trip loses 240 lines, while one
step-size unit of the original interval is only `597 / 100 = 5`. -/
theorem zoom_round_trip_divergent :
    zoomInSt ⟨597, (0, 597)⟩ 10 = some ⟨597, (8, 127)⟩ ∧
    zoomOutSt ⟨597, (8, 127)⟩ 10 = some ⟨597, (4, 361)⟩ ∧
    (361 - 4 : Nat) = 357 ∧ (597 - 357 : Nat) = 240 ∧
    (597 - 0 : Nat) / chartHorizontalResolution = 5 ∧ (240 : Nat) > 5 := by
  decide

/-- C9: refuted by a reachable state — the state `⟨300, (1, 100)⟩` is reached
from `ChartState::new` on a 300-line series by a single `zoom_in` at focus
line 1, and `zoom_out` from it computes
`current_step_size = 99 / 100 = 0` after passing both guards
(`297 ≥ 100`, `297 ≤ 300`), so the recentering arithmetic divides by zero and
the program panics: `zoom` is not total on reachable states. -/
theorem zoom_division_by_zero_reachable :
    ReachSt 300 ⟨300, (1, 100)⟩ ∧ zoomOutSt ⟨300, (1, 100)⟩ 1 = none := by
  constructor
  · exact ReachSt.zoomIn ⟨300, (0, 300)⟩ ⟨300, (1, 100)⟩ 1
      (ReachSt.init (by decide)) (by decide)
  · decide

/-- Witness for C4 amended at a three-line input with a tie in elapsed time:
the sort is non-increasing, and the tied lines 0 and 2 stay in index order. -/
theorem sortedLines_spec_witness :
    (sortedLines [⟨0, [], 0, 3⟩, ⟨1, [], 3, 7⟩, ⟨2, [], 5, 3⟩]).Pairwise
        elapsedGE ∧
    (sortedLines [⟨0, [], 0, 3⟩, ⟨1, [], 3, 7⟩, ⟨2, [], 5, 3⟩]).Pairwise
        StableOrder :=
  ⟨(sortedLines_spec [⟨0, [], 0, 3⟩, ⟨1, [], 3, 7⟩, ⟨2, [], 5, 3⟩]
      (by decide)).2.2.2.1,
   (sortedLines_spec [⟨0, [], 0, 3⟩, ⟨1, [], 3, 7⟩, ⟨2, [], 5, 3⟩]
      (by decide)).2.2.2.2⟩

/-- C8: the word wrapper, fed the grapheme stream of `"hello world"` with
maximum width 7, yields exactly the two lines `"hello"` and `"world"` (widths
5 and 5): the overflow at the second `o` of `world` truncates back to the
recorded word boundary before the space, and the remainder `wo` (leading
whitespace stripped) is carried forward to start the next line, so the break
happens at the space, never mid-word, and no content is lost. -/
theorem wordWrapper_hello_world :
    wwLines asciiW 7 helloStream =
      [((("hello").toList).map (fun c => (⟨[c], ()⟩ : Styled Unit)), 5),
       ((("world").toList).map (fun c => (⟨[c], ()⟩ : Styled Unit)), 5)] := by
  rfl

/-- C10 counterexample: with max width 4 and the stream `a a a 日` (the
ideograph two columns wide), there is no word boundary, so the overflow caused
by `日` hard-truncates and reports the line width as `max_line_width = 4`,
but the symbols actually returned (`a a a`) have total display width 3: the
reported width does not equal the sum of the widths of the returned symbols. -/
theorem wordWrapper_width_counterexample :
    (wwLines cjkW 4 [(⟨[ 'a' ], ()⟩ : Styled Unit), ⟨[ 'a' ], ()⟩,
        ⟨[ 'a' ], ()⟩, ⟨[ '日' ], ()⟩]).getD 0 ([], 0) =
      ([⟨[ 'a' ], ()⟩, ⟨[ 'a' ], ()⟩, ⟨[ 'a' ], ()⟩], 4) ∧
    sumW cjkW [(⟨[ 'a' ], ()⟩ : Styled Unit), ⟨[ 'a' ], ()⟩,
        ⟨[ 'a' ], ()⟩] = 3 ∧
    (3 : Nat) ≠ 4 := by
  refine ⟨rfl, rfl, by decide⟩

/-! ### Width bookkeeping lemmas for the word wrapper -/

theorem sumW_append (w : List Char → Nat) (l1 l2 : List (Styled α)) :
    sumW w (l1 ++ l2) = sumW w l1 + sumW w l2 := by
  induction l1 with
  | nil => simp [sumW]
  | cons st rest ih => simp [sumW, ih]; omega

theorem sumW_take_add_drop (w : List Char → Nat) (l : List (Styled α))
    (n : Nat) : sumW w (l.take n) + sumW w (l.drop n) = sumW w l := by
  rw [← sumW_append, List.take_append_drop]

theorem sumW_take_le (w : List Char → Nat) (l : List (Styled α)) (n : Nat) :
    sumW w (l.take n) ≤ sumW w l := by
  have := sumW_take_add_drop w l n
  omega

theorem sumW_sublist_le (w : List Char → Nat) {l1 l2 : List (Styled α)}
    (h : l1.Sublist l2) : sumW w l1 ≤ sumW w l2 := by
  induction h with
  | slnil => exact Nat.le_refl 0
  | cons st _ ih => simp only [sumW]; omega
  | cons₂ st _ ih => simp only [sumW]; omega

theorem W1_of_sublist (w : List Char → Nat) {l1 l2 : List (Styled α)}
    (h : l1.Sublist l2) (h2 : W1 w l2) : W1 w l1 :=
  fun st hst => h2 st (h.mem hst)

theorem WWInv.mk' {w : List Char → Nat} {maxW : Nat}
    (ln : List (Styled α)) (rep : Nat) (carry stream : List (Styled α))
    (h1 : rep = sumW w ln) (h2 : rep ≤ maxW) (h3 : W1 w carry)
    (h4 : sumW w carry ≤ maxW) (h5 : W1 w stream) :
    WWInv w maxW ((ln, rep), carry, stream) :=
  ⟨h1, h2, h3, h4, h5⟩

theorem wwOverflow_spec (w : List Char → Nat) (maxW : Nat)
    (cur : List (Styled α)) (st : Styled α) (ta tw : Nat)
    (rest : List (Styled α)) (hmax : 1 ≤ maxW)
    (hW1 : W1 w (cur ++ [st])) (hrest : W1 w rest)
    (hpre : sumW w cur ≤ maxW) (hover : maxW < sumW w cur + w st.sym)
    (hta : ta ≤ cur.length) (htw : tw = sumW w (cur.take ta))
    (htw1 : ta ≠ 0 → 1 ≤ tw) :
    WWInv w maxW (wwOverflow maxW (cur ++ [st]) ta tw rest) := by
  have hst1 : w st.sym ≤ 1 := hW1 st (by simp)
  have hst : w st.sym = 1 := by omega
  have hcurW : sumW w cur = maxW := by omega
  have htot : sumW w (cur ++ [st]) = maxW + 1 := by
    rw [sumW_append]; simp [sumW]; omega
  by_cases h : ta ≠ 0
  · rw [wwOverflow, if_pos h]
    have htake : (cur ++ [st]).take ta = cur.take ta :=
      List.take_append_of_le_length hta
    refine WWInv.mk' _ _ _ _ ?_ ?_ ?_ ?_ hrest
    · rw [htake, ← htw]
    · have := sumW_take_le w cur ta
      omega
    · intro x hx
      exact hW1 x ((List.drop_sublist _ _).mem
        ((List.dropWhile_sublist _).mem hx))
    · have h1 : sumW w (wwStrip ((cur ++ [st]).drop ta)) ≤
          sumW w ((cur ++ [st]).drop ta) :=
        sumW_sublist_le w (List.dropWhile_sublist _)
      have h2 : sumW w ((cur ++ [st]).take ta) +
          sumW w ((cur ++ [st]).drop ta) = sumW w (cur ++ [st]) :=
        sumW_take_add_drop w _ ta
      have h3 : sumW w ((cur ++ [st]).take ta) = tw := by
        rw [htake, ← htw]
      have h4 : 1 ≤ tw := htw1 h
      omega
  · rw [wwOverflow, if_neg h]
    push_neg at h
    subst h
    have hlen : (cur ++ [st]).length - 1 = cur.length := by simp
    rw [hlen, List.take_left, List.drop_left]
    refine WWInv.mk' _ _ _ _ ?_ (Nat.le_refl maxW) ?_ ?_ hrest
    · rw [hcurW]
    · intro x hx
      have hx2 : x ∈ [st] := (List.dropWhile_sublist _).mem hx
      have hxst : x = st := by simpa using hx2
      rw [hxst]
      exact hW1 st (by simp)
    · have h1 : sumW w (wwStrip [st]) ≤ sumW w [st] :=
        sumW_sublist_le w (List.dropWhile_sublist _)
      have h2 : sumW w [st] = w st.sym := by simp [sumW]
      omega

theorem wwLoop_spec (w : List Char → Nat) (maxW : Nat) (hmax : 1 ≤ maxW) :
    ∀ (rest cur : List (Styled α)) (clw s2 w2 : Nat) (prevWs : Bool),
      W1 w rest → W1 w cur → clw = sumW w cur → clw ≤ maxW →
      s2 ≤ cur.length → w2 = sumW w (cur.take s2) → (s2 ≠ 0 → 1 ≤ w2) →
      WWInv w maxW (wwLoop w maxW rest cur clw s2 w2 prevWs) := by
  intro rest
  induction rest with
  | nil =>
    intro cur clw s2 w2 prevWs hrest hcur hclw hle hs2 hw2 hw21
    show WWInv w maxW ((cur, clw), [], [])
    exact WWInv.mk' _ _ _ _ hclw hle
      (fun x hx => absurd hx (List.not_mem_nil x)) (by simp [sumW])
      (fun x hx => absurd hx (List.not_mem_nil x))
  | cons st rest ih =>
    intro cur clw s2 w2 prevWs hrest hcur hclw hle hs2 hw2 hw21
    have hrest' : W1 w rest := fun x hx => hrest x (by simp [hx])
    have hstW : w st.sym ≤ 1 := hrest st (by simp)
    have hcur' : W1 w (cur ++ [st]) := by
      intro x hx
      rcases List.mem_append.mp hx with hx | hx
      · exact hcur x hx
      · have hxst : x = st := by simpa using hx
        rw [hxst]; exact hstW
    simp only [wwLoop]
    by_cases h1 : maxW < w st.sym ∨
        (st.sym.all isWsChar = true ∧ st.sym ≠ nlSym ∧ clw = 0)
    · rw [if_pos h1]
      exact ih cur clw s2 w2 prevWs hrest' hcur hclw hle hs2 hw2 hw21
    · rw [if_neg h1]
      by_cases h2 : st.sym = nlSym
      · rw [if_pos h2]
        by_cases h3 : prevWs = true
        · rw [if_pos h3]
          refine WWInv.mk' _ _ _ _ hw2 ?_
            (fun x hx => absurd hx (List.not_mem_nil x)) (by simp [sumW])
            hrest'
          have := sumW_take_le w cur s2
          omega
        · rw [if_neg h3]
          exact WWInv.mk' _ _ _ _ hclw hle
            (fun x hx => absurd hx (List.not_mem_nil x)) (by simp [sumW])
            hrest'
      · rw [if_neg h2]
        by_cases h4 : st.sym.all isWsChar = true ∧ prevWs = false ∧
            st.sym ≠ nbspSym
        · rw [if_pos h4]
          have hclw1 : 1 ≤ clw := by
            rcases Nat.eq_zero_or_pos clw with h0 | h0
            · exact absurd (Or.inr ⟨h4.1, h2, h0⟩) h1
            · exact h0
          by_cases h5 : maxW < clw + w st.sym
          · rw [if_pos h5]
            exact wwOverflow_spec w maxW cur st cur.length clw rest hmax
              hcur' hrest' (by omega) (by omega) (Nat.le_refl _)
              (by rw [List.take_length]; exact hclw) (fun _ => hclw1)
          · rw [if_neg h5]
            apply ih
            · exact hrest'
            · exact hcur'
            · rw [sumW_append]
              simp only [sumW]
              omega
            · omega
            · simp
            · rw [List.take_append_of_le_length (Nat.le_refl _),
                List.take_length]
              exact hclw
            · exact fun _ => hclw1
        · rw [if_neg h4]
          by_cases h5 : maxW < clw + w st.sym
          · rw [if_pos h5]
            exact wwOverflow_spec w maxW cur st s2 w2 rest hmax hcur' hrest'
              (by omega) (by omega) hs2 hw2 hw21
          · rw [if_neg h5]
            apply ih
            · exact hrest'
            · exact hcur'
            · rw [sumW_append]
              simp only [sumW]
              omega
            · omega
            · simp
              omega
            · rw [List.take_append_of_le_length hs2]
              exact hw2
            · exact hw21

theorem wwNext_spec (w : List Char → Nat) (maxW : Nat)
    (carry stream : List (Styled α)) (hc : W1 w carry) (hs : W1 w stream)
    (hcw : sumW w carry ≤ maxW) :
    (∀ ln rep, (wwNext w maxW carry stream).1 = some (ln, rep) →
      rep = sumW w ln ∧ rep ≤ maxW) ∧
    W1 w (wwNext w maxW carry stream).2.1 ∧
    sumW w (wwNext w maxW carry stream).2.1 ≤ maxW ∧
    W1 w (wwNext w maxW carry stream).2.2 := by
  by_cases h0 : maxW = 0
  · rw [wwNext, if_pos h0]
    exact ⟨fun ln rep h => Option.noConfusion h, hc, hcw, hs⟩
  · rw [wwNext, if_neg h0]
    by_cases hse : stream.isEmpty
    · rw [if_pos hse]
      by_cases hce : carry.isEmpty
      · rw [if_pos hce]
        refine ⟨fun ln rep h => Option.noConfusion h, ?_, by simp [sumW], ?_⟩
          <;> exact fun x hx => absurd hx (List.not_mem_nil x)
      · rw [if_neg hce]
        refine ⟨?_, fun x hx => absurd hx (List.not_mem_nil x),
          by simp [sumW], fun x hx => absurd hx (List.not_mem_nil x)⟩
        intro ln rep h
        have h1 : (carry, sumW w carry) = (ln, rep) := Option.some.inj h
        cases h1
        exact ⟨rfl, hcw⟩
    · rw [if_neg hse]
      have hmax : 1 ≤ maxW := Nat.one_le_iff_ne_zero.mpr h0
      have hspec := wwLoop_spec w maxW hmax stream carry (sumW w carry)
        0 0 false hs hc rfl hcw (Nat.zero_le _) (by simp [sumW])
        (fun h => absurd rfl h)
      rcases hloop : wwLoop w maxW stream carry (sumW w carry) 0 0 false
        with ⟨⟨ln0, rep0⟩, carry0, stream0⟩
      rw [hloop] at hspec
      rcases hspec with ⟨e1, e2, e3, e4, e5⟩
      refine ⟨?_, e3, e4, e5⟩
      intro ln rep h
      have h1 : (ln0, rep0) = (ln, rep) := Option.some.inj h
      cases h1
      exact ⟨e1, e2⟩

theorem wwRun_spec (w : List Char → Nat) (maxW : Nat) :
    ∀ (fuel : Nat) (carry stream : List (Styled α)),
      W1 w carry → W1 w stream → sumW w carry ≤ maxW →
      ∀ p ∈ wwRun w maxW fuel carry stream,
        p.2 = sumW w p.1 ∧ p.2 ≤ maxW := by
  intro fuel
  induction fuel with
  | zero =>
    intro carry stream _ _ _ p hp
    exact absurd hp (List.not_mem_nil p)
  | succ fuel ih =>
    intro carry stream hc hs hcw p hp
    have hspec := wwNext_spec w maxW carry stream hc hs hcw
    rcases hnx : wwNext w maxW carry stream with ⟨yielded, carry', stream'⟩
    rw [hnx] at hspec
    rcases hspec with ⟨e1, e2, e3, e4⟩
    rw [wwRun, hnx] at hp
    cases yielded with
    | none => exact absurd hp (List.not_mem_nil p)
    | some ln =>
      simp only at hp
      rcases List.mem_cons.mp hp with hp | hp
      · rcases ln with ⟨l0, r0⟩
        rw [hp]
        exact e1 l0 r0 rfl
      · exact ih carry' stream' e2 e4 e3 p hp

/-- C10 amended: for symbol streams whose graphemes all occupy at most one
display column (in particular any ASCII text), every line the word wrapper
yields reports a width equal to the sum of the display widths of the symbols
it returns, and that width never exceeds `max_line_width`. (With wider
graphemes the hard-truncation case may report `max_line_width` while the
returned symbols sum to less, as the counterexample shows.) -/
theorem wordWrapper_width_invariant (w : List Char → Nat) (maxW : Nat)
    (stream : List (Styled α)) (hw : ∀ st ∈ stream, w st.sym ≤ 1) :
    ∀ p ∈ wwLines w maxW stream, p.2 = sumW w p.1 ∧ p.2 ≤ maxW := by
  intro p hp
  exact wwRun_spec w maxW (stream.length + 2) [] stream
    (fun x hx => absurd hx (List.not_mem_nil x)) hw (by simp [sumW]) p hp

/-- Witness for C10 amended, at the `"hello world"` stream with width 7: the
first yielded line (`"hello"`) reports width 5, which is the sum of its
symbol widths and is at most 7. -/
theorem wordWrapper_width_invariant_witness :
    (5 : Nat) = sumW asciiW
      ((("hello").toList).map (fun c => (⟨[c], ()⟩ : Styled Unit))) ∧
    (5 : Nat) ≤ 7 := by
  have h := wordWrapper_width_invariant asciiW 7 helloStream (by decide)
  exact h ((("hello").toList).map (fun c => (⟨[c], ()⟩ : Styled Unit)), 5)
    (by rw [wordWrapper_hello_world]; exact List.mem_cons_self _ _)
